import Mathlib

/-!
# Verification of the Domino server-side DOM adapter

Shallow embedding, in Lean 4, of `src/packages/platform-server/src/domino_adapter.ts`
(the `DominoAdapter` class and the free functions around it), together with
theorems settling the specification claims about it.

Strings manipulated by the style codec are modelled as `List Char`
(a faithful model of a JS string as a sequence of characters); element
attributes and property names elsewhere use Lean `String`.
-/

deriving instance DecidableEq for Except

namespace DominoAdapter

/-! ## Nodes with parent chains, and `contains`

A node is modelled together with its upward `parent` chain: `root i` is a
node with no parent (`parent` is null), `child i p` is a node whose
`parent` is `p`.  Node identity (`===` on references) is modelled by
structural equality, which is faithful under the tree invariant the code
assumes (distinct live nodes have distinct ids or distinct chains). -/

inductive PNode where
  | root (id : Nat)
  | child (id : Nat) (parent : PNode)
  deriving DecidableEq, Repr

/-- Model of `contains(nodeA, nodeB)`: start at `nodeB`, return true on
reference equality with `nodeA`, else climb to the parent; false when the
chain is exhausted. -/
def contains (nodeA nodeB : PNode) : Bool :=
  if nodeB = nodeA then true
  else
    match nodeB with
    | .root _ => false
    | .child _ p => contains nodeA p

/-- The node `a` occurs strictly above `b` on `b`'s parent chain (proper
ancestor). -/
def properAncestor (a b : PNode) : Bool :=
  match b with
  | .root _ => false
  | .child _ p => contains a p

/-! ## `_notImplemented` and the unsupported capabilities -/

/-- The message of the `Error` constructed by `_notImplemented(methodName)`. -/
def _notImplemented (methodName : String) : String :=
  "This method is not implemented in DominoAdapter: " ++ methodName

/-- Model of `getHistory()`: always throws `_notImplemented('getHistory')`. -/
def getHistory : Except String Unit := .error (_notImplemented "getHistory")

/-- Model of `getLocation()`: always throws `_notImplemented('getLocation')`. -/
def getLocation : Except String Unit := .error (_notImplemented "getLocation")

/-- Model of `getDistributedNodes(el)`: always throws
`_notImplemented('getDistributedNodes')`. -/
def getDistributedNodes (el : Nat) : Except String (List Nat) :=
  .error (_notImplemented "getDistributedNodes")

/-- Model of `getCookie(name)`: always throws `_notImplemented('getCookie')`. -/
def getCookie (name : String) : Except String String :=
  .error (_notImplemented "getCookie")

/-- Model of `setCookie(name, value)`: always throws `_notImplemented('setCookie')`. -/
def setCookie (name value : String) : Except String Unit :=
  .error (_notImplemented "setCookie")

/-! ## Elements: attributes, dynamic properties, `textContent`

`JSVal` models the dynamically typed values a property read can yield. -/

inductive JSVal where
  | undef
  | null
  | str (s : String)
  deriving DecidableEq, Repr

/-- JS string coercion as applied by `setAttribute` on a non-string value. -/
def JSVal.toStr : JSVal → String
  | .undef => "undefined"
  | .null => "null"
  | .str s => s

structure Elem where
  /-- the element's attribute map (string keys and values, later-set wins) -/
  attrs : List (String × String)
  /-- the underlying engine's direct property read, e.g. domino's `href`
  getter that URL-resolves; arbitrary here -/
  props : String → JSVal
  /-- the node's `textContent` -/
  textContent : JSVal

/-- Generic JS-object/attribute-map assignment: update an existing key in
place, or append a new binding at the end. -/
def setKey {α β : Type} [DecidableEq α] (m : List (α × β)) (k : α) (v : β) :
    List (α × β) :=
  if m.any (fun p => decide (p.1 = k)) then
    m.map (fun p => if p.1 = k then (k, v) else p)
  else
    m ++ [(k, v)]

/-- Base-adapter `getAttribute(el, name)`: `el.getAttribute(name)`, which
yields the attribute string or null. -/
def getAttribute (el : Elem) (name : String) : JSVal :=
  match (el.attrs.find? (fun p => decide (p.1 = name))) with
  | some p => .str p.2
  | none => .null

/-- Base-adapter `setAttribute(el, name, value)`: `el.setAttribute(name, value)`. -/
def setAttribute (el : Elem) (name value : String) : Elem :=
  { el with attrs := setKey el.attrs name value }

/-- Model of `getProperty(el, name)`: `'href'` delegates to the attribute
read, `'innerText'` maps to `textContent`, anything else is a direct
property read. -/
def getProperty (el : Elem) (name : String) : JSVal :=
  if name = "href" then getAttribute el "href"
  else if name = "innerText" then el.textContent
  else el.props name

/-- Model of `setProperty(el, name, value)`: `'href'` also mirrors onto the
attribute, `'innerText'` also mirrors onto `textContent`; every name gets
the direct property write `el[name] = value`. -/
def setProperty (el : Elem) (name : String) (value : JSVal) : Elem :=
  let el' :=
    if name = "href" then setAttribute el "href" value.toStr
    else if name = "innerText" then { el with textContent := value }
    else el
  { el' with props := fun n => if n = name then value else el'.props n }

/-! ## `dispatchEvent`

The underlying engine's dispatch delivers an event to its target; we record
deliveries as `(target id, event id)` pairs, in order.  A node carries its
id and, unless it is itself a document, the id of its owning document; an
environment maps a document id to the id of its `defaultView`, if any. -/

structure DNode where
  id : Nat
  /-- `el.ownerDocument`, null (`none`) when the node is a document -/
  ownerDocument : Option Nat
  deriving DecidableEq, Repr

structure DomEnv where
  /-- `doc.defaultView`, by document id; `none` models a null default view -/
  defaultView : Nat → Option Nat

/-- Model of `dispatchEvent(el, evt)`: dispatch on `el`, then compute
`doc = el.ownerDocument || el` and, when `doc.defaultView` is non-null,
dispatch the same event on it as well. -/
def dispatchEvent (env : DomEnv) (el : DNode) (evt : Nat) : List (Nat × Nat) :=
  let doc := match el.ownerDocument with
    | some d => d
    | none => el.id
  match env.defaultView doc with
  | some win => [(el.id, evt), (win, evt)]
  | none => [(el.id, evt)]

/-! ## Default document singleton and node classification

`domino.createDocument()` yields a document carrying the standard
`nodeType` constants.  `DominoAdapter.defaultDoc` is a static field that is
`undefined` until `getDefaultDocument()` first runs; `isTextNode` and
`isCommentNode` read it without initializing it, which in JS dereferences
`undefined` and throws — modelled as an `Except` error. -/

structure Doc where
  TEXT_NODE : Nat
  COMMENT_NODE : Nat
  ELEMENT_NODE : Nat
  deriving DecidableEq, Repr

/-- Model of `domino.createDocument()`: a fresh document carrying the
standard DOM nodeType constants. -/
def createDocument : Doc :=
  { TEXT_NODE := 3, COMMENT_NODE := 8, ELEMENT_NODE := 1 }

/-- Model of `getDefaultDocument()`: lazily create and memoize
`DominoAdapter.defaultDoc`.  Returns the document together with the updated
static field. -/
def getDefaultDocument (defaultDoc : Option Doc) : Doc × Option Doc :=
  match defaultDoc with
  | none => (createDocument, some createDocument)
  | some d => (d, some d)

structure TNode where
  nodeType : Nat
  deriving DecidableEq, Repr

/-- Model of `isTextNode(node)`: compares `node.nodeType` with
`DominoAdapter.defaultDoc.TEXT_NODE`, reading the static field directly;
fails when it is still uninitialized. -/
def isTextNode (defaultDoc : Option Doc) (node : TNode) : Except String Bool :=
  match defaultDoc with
  | none => .error "TypeError: cannot read TEXT_NODE of undefined"
  | some d => .ok (node.nodeType = d.TEXT_NODE)

/-- Model of `isCommentNode(node)`: compares `node.nodeType` with
`DominoAdapter.defaultDoc.COMMENT_NODE`, reading the static field directly. -/
def isCommentNode (defaultDoc : Option Doc) (node : TNode) : Except String Bool :=
  match defaultDoc with
  | none => .error "TypeError: cannot read COMMENT_NODE of undefined"
  | some d => .ok (node.nodeType = d.COMMENT_NODE)

/-! ## The style-attribute codec

An element, for the style operations, is represented by its `style`
attribute: `none` models an absent attribute (`getAttribute` yields null).
Style maps are association lists; JS object semantics (later assignment to
an existing key overwrites in place, a new key is appended) are captured by
`setKey`. -/

abbrev Chars := List Char

/-- Model of JS `String.prototype.trim()`: drop whitespace from both ends. -/
def jsTrim (s : Chars) : Chars :=
  ((s.dropWhile Char.isWhitespace).reverse.dropWhile Char.isWhitespace).reverse

/-- Model of JS `String.prototype.trimStart()`: drop whitespace from the left only. -/
def jsTrimStart (s : Chars) : Chars :=
  s.dropWhile Char.isWhitespace

/-- Model of `styleAttribute.split(/;+/g)`, up to empty pieces: splitting on
each single `';'`.  The two splits yield the same non-empty pieces, and the
read loop skips empty pieces. -/
def splitSemi : Chars → List Chars
  | [] => [[]]
  | c :: rest =>
    let r := splitSemi rest
    if c = ';' then [] :: r
    else
      match r with
      | [] => [[c]]
      | piece :: pieces => (c :: piece) :: pieces

/-- Model of `style.indexOf(':')` together with the two `substr` calls:
`none` when the segment has no colon, otherwise the text before and after
the first colon. -/
def splitColon : Chars → Option (Chars × Chars)
  | [] => none
  | c :: rest =>
    if c = ':' then some ([], rest)
    else (splitColon rest).map (fun p => (c :: p.1, p.2))

/-- A style map as produced by `_readStyleAttribute`: string keys, string values. -/
abbrev StyleMap := List (Chars × Chars)

/-- An in-memory style map as mutated by `setStyle`: values may be null
(`none`), which is falsy on serialization. -/
abbrev MutStyleMap := List (Chars × Option Chars)

/-- JS truthiness of a style value: null and the empty string are falsy. -/
def truthy : Option Chars → Bool
  | some v => decide (v ≠ [])
  | none => false

/-- Loop body of `_readStyleAttribute` over the split segments, threading
the accumulated style map.  A non-empty segment without a colon throws
`Invalid CSS style: segment`. -/
def readSegs (acc : StyleMap) : List Chars → Except String StyleMap
  | [] => .ok acc
  | seg :: rest =>
    if 0 < seg.length then
      match splitColon seg with
      | none => .error ("Invalid CSS style: " ++ String.mk seg)
      | some (k, v) => readSegs (setKey acc (jsTrim k) (jsTrim v)) rest
    else readSegs acc rest

/-- Model of `_readStyleAttribute(element)`: an absent or empty (falsy)
`style` attribute yields the empty map, otherwise the attribute string is
split on semicolons and parsed segment by segment. -/
def _readStyleAttribute (styleAttr : Option Chars) : Except String StyleMap :=
  match styleAttr with
  | none => .ok []
  | some s => if s = [] then .ok [] else readSegs [] (splitSemi s)

/-- Model of `_writeStyleAttribute(element, styleMap)`: the string written
into the `style` attribute — `key:value;` for each truthy-valued entry, in
map order; falsy-valued entries contribute nothing. -/
def _writeStyleAttribute (styleMap : MutStyleMap) : Chars :=
  styleMap.foldl
    (fun acc p =>
      if truthy p.2 then acc ++ p.1 ++ ':' :: (p.2.getD [] ++ [';'])
      else acc)
    []

/-- View a freshly parsed style map as an in-memory map (all values present). -/
def toMutable (m : StyleMap) : MutStyleMap :=
  m.map (fun p => (p.1, some p.2))

/-- Model of `setStyle(element, styleName, styleValue)`: re-parse the
attribute, assign (possibly null), re-serialize.  Yields the element's new
`style` attribute. -/
def setStyle (styleAttr : Option Chars) (styleName : Chars) (styleValue : Option Chars) :
    Except String (Option Chars) := do
  let styleMap ← _readStyleAttribute styleAttr
  pure (some (_writeStyleAttribute (setKey (toMutable styleMap) styleName styleValue)))

/-- Model of `removeStyle(element, styleName)`: `setStyle(element, styleName, null)`. -/
def removeStyle (styleAttr : Option Chars) (styleName : Chars) :
    Except String (Option Chars) :=
  setStyle styleAttr styleName none

/-- Model of `getStyle(element, styleName)`: re-parse, then
`styleMap.hasOwnProperty(styleName) ? styleMap[styleName] : ''`. -/
def getStyle (styleAttr : Option Chars) (styleName : Chars) : Except String Chars := do
  let styleMap ← _readStyleAttribute styleAttr
  match styleMap.find? (fun p => decide (p.1 = styleName)) with
  | some p => pure p.2
  | none => pure []

/-- Model of `hasStyle(element, styleName, styleValue)`:
`styleValue ? value == styleValue : value.length > 0`, where a missing or
empty-string `styleValue` is falsy. -/
def hasStyle (styleAttr : Option Chars) (styleName : Chars) (styleValue : Option Chars) :
    Except String Bool := do
  let value ← getStyle styleAttr styleName
  pure (if truthy styleValue then decide (value = styleValue.getD [])
        else decide (0 < value.length))

/-! ## Derived notions used by the theorems -/

/-- Keys of an association list. -/
def keys {α β : Type} (m : List (α × β)) : List α := m.map Prod.fst

/-- The truthy-valued entries of an in-memory style map, viewed as a parsed
style map — exactly the entries `_writeStyleAttribute` serializes. -/
def truthyEntries (m : MutStyleMap) : StyleMap :=
  m.filterMap (fun p =>
    match p.2 with
    | some v => if v = [] then none else some (p.1, v)
    | none => none)

/-- Well-formedness of a parsed style entry: the key holds no colon and no
semicolon and is trimmed; the value holds no semicolon and is trimmed. -/
def WFPair (p : Chars × Chars) : Prop :=
  ':' ∉ p.1 ∧ ';' ∉ p.1 ∧ jsTrim p.1 = p.1 ∧ ';' ∉ p.2 ∧ jsTrim p.2 = p.2

/-- Every entry of a parsed style map is well-formed. -/
def WFMap (m : StyleMap) : Prop := ∀ p ∈ m, WFPair p

/-- Well-formedness of an in-memory style entry (the value may be null). -/
def WFMutPair (p : Chars × Option Chars) : Prop :=
  ':' ∉ p.1 ∧ ';' ∉ p.1 ∧ jsTrim p.1 = p.1 ∧
    ∀ v, p.2 = some v → ';' ∉ v ∧ jsTrim v = v

/-- Every entry of an in-memory style map is well-formed. -/
def WFMutMap (m : MutStyleMap) : Prop := ∀ p ∈ m, WFMutPair p

/-! ## The parse policy of claim C4, transcribed from its words

Two reference parsers for the style-attribute string, written from the
claim text rather than from the source: segments are the non-empty pieces
of the split on one-or-more consecutive semicolons, each must contain a
colon, and key/value are taken around the first colon.  `claimParseStyle`
takes the key LEFT-trimmed, as the claim states; `amendedParseStyle` takes
it trimmed on both sides. -/

/-- Segment loop of `claimParseStyle`: key left-trimmed only. -/
def claimSegs (acc : StyleMap) : List Chars → Except String StyleMap
  | [] => .ok acc
  | seg :: rest =>
    match splitColon seg with
    | none => .error ("Invalid CSS style: " ++ String.mk seg)
    | some (k, v) => claimSegs (setKey acc (jsTrimStart k) (jsTrim v)) rest

/-- Style-attribute parser written from claim C4 as stated (key
left-trimmed). -/
def claimParseStyle (styleAttr : Option Chars) : Except String StyleMap :=
  match styleAttr with
  | none => .ok []
  | some s => claimSegs [] ((splitSemi s).filter (fun seg => decide (seg ≠ [])))

/-- Segment loop of `amendedParseStyle`: key trimmed on both sides. -/
def amendedSegs (acc : StyleMap) : List Chars → Except String StyleMap
  | [] => .ok acc
  | seg :: rest =>
    match splitColon seg with
    | none => .error ("Invalid CSS style: " ++ String.mk seg)
    | some (k, v) => amendedSegs (setKey acc (jsTrim k) (jsTrim v)) rest

/-- Style-attribute parser written from claim C4 amended so that the key is
trimmed on both sides. -/
def amendedParseStyle (styleAttr : Option Chars) : Except String StyleMap :=
  match styleAttr with
  | none => .ok []
  | some s => amendedSegs [] ((splitSemi s).filter (fun seg => decide (seg ≠ [])))

/-! ## Concrete fixtures for the witness theorems -/

/-- A concrete element: no attributes, all properties undefined, null text. -/
def sampleElem : Elem :=
  { attrs := [], props := fun _ => JSVal.undef, textContent := JSVal.null }

/-- A concrete environment: document 0 has default view 100, nothing else. -/
def sampleEnv : DomEnv :=
  { defaultView := fun d => if d = 0 then some 100 else none }

/-- A concrete node owned by document 0. -/
def sampleNode : DNode := { id := 1, ownerDocument := some 0 }

end DominoAdapter

/-! # Theorems -/

namespace DominoAdapter

/-! ## Association-list helper lemmas -/

theorem any_key_iff {α β : Type} [DecidableEq α] (m : List (α × β)) (k : α) :
    m.any (fun p => decide (p.1 = k)) = true ↔ k ∈ keys m := by
  simp [keys, List.any_eq_true, List.mem_map]

theorem setKey_of_not_mem {α β : Type} [DecidableEq α] (m : List (α × β)) (k : α) (v : β)
    (h : k ∉ keys m) :
    setKey m k v = m ++ [(k, v)] := by
  unfold setKey
  rw [if_neg]
  intro hany
  exact h ((any_key_iff m k).1 hany)

theorem find?_updateMap {α β : Type} [DecidableEq α] (m : List (α × β)) (k : α) (v : β)
    (h : k ∈ keys m) :
    (m.map (fun p => if p.1 = k then (k, v) else p)).find? (fun p => decide (p.1 = k)) =
      some (k, v) := by
  induction m with
  | nil => cases h
  | cons q rest ih =>
    by_cases hq : q.1 = k
    · simp [List.find?_cons, hq]
    · have h' : k ∈ keys rest := by
        have : k = q.1 ∨ k ∈ keys rest := by simpa [keys] using h
        rcases this with h'' | h''
        · exact absurd h''.symm hq
        · exact h''
      simp [List.find?_cons, hq, ih h']

theorem find?_setKey {α β : Type} [DecidableEq α] (m : List (α × β)) (k : α) (v : β) :
    (setKey m k v).find? (fun p => decide (p.1 = k)) = some (k, v) := by
  by_cases h : k ∈ keys m
  · unfold setKey
    rw [if_pos ((any_key_iff m k).2 h)]
    exact find?_updateMap m k v h
  · rw [setKey_of_not_mem m k v h]
    have hnone : m.find? (fun p => decide (p.1 = k)) = none := by
      rw [List.find?_eq_none]
      intro x hx
      simp only [decide_eq_true_eq]
      intro hxk
      exact h ((any_key_iff m k).1 (List.any_eq_true.2 ⟨x, hx, by simp [hxk]⟩))
    rw [List.find?_append, hnone]
    simp [List.find?_cons]

/-! ## Claim C1 — `contains` -/

/-- C1 counterexample: `contains(a, a)` is `true` for a parentless node,
which is not a proper ancestor of itself — the walk starts at `b` itself,
so the claim that `contains(a, a)` returns false is violated. -/
theorem contains_self_counterexample :
    contains (PNode.root 0) (PNode.root 0) = true ∧
    properAncestor (PNode.root 0) (PNode.root 0) = false := by
  exact ⟨rfl, rfl⟩

/-- C1 amended: `contains(a, b)` returns true iff `a === b` or `a` is a
proper ancestor of `b` along `b`'s parent chain; in particular
`contains(a, a)` is always true. -/
theorem contains_iff_eq_or_properAncestor (a b : PNode) :
    contains a b = true ↔ (a = b ∨ properAncestor a b = true) := by
  cases b with
  | root i =>
    simp only [contains, properAncestor]
    split
    next h => simp [h.symm]
    next h =>
      have : ¬ a = PNode.root i := fun heq => h heq.symm
      simp [this]
  | child i p =>
    simp only [contains, properAncestor]
    split
    next h => simp [h.symm]
    next h =>
      have : ¬ a = PNode.child i p := fun heq => h heq.symm
      simp [this]

/-! ## Claim C5 — `getProperty` -/

/-- C5: `getProperty` on `'href'` returns the raw attribute string just set
(no URL resolution, whatever the underlying property getter would return),
on `'innerText'` returns `textContent`, and on any other name performs the
direct property read. -/
theorem getProperty_spec (el : Elem) (v : String) (name : String)
    (h1 : name ≠ "href") (h2 : name ≠ "innerText") :
    getProperty (setAttribute el "href" v) "href" = .str v ∧
    getProperty el "innerText" = el.textContent ∧
    getProperty el name = el.props name := by
  refine ⟨?_, ?_, ?_⟩
  · simp [getProperty, getAttribute, setAttribute, find?_setKey]
  · simp [getProperty]
  · simp [getProperty, h1, h2]

/-- C5 witness at a concrete element and name. -/
theorem getProperty_spec_witness :
    getProperty (setAttribute sampleElem "href" "/x") "href" = .str "/x" ∧
    getProperty sampleElem "id" = sampleElem.props "id" := by
  have h := getProperty_spec sampleElem "/x" "id" (by decide) (by decide)
  exact ⟨h.1, h.2.2⟩

/-! ## Claim C6 — `setProperty` -/

/-- C6: `setProperty` on `'href'` writes both the attribute and the direct
property; on `'innerText'` writes both `textContent` and the direct
property; on any other name performs only the direct property write
(attributes and `textContent` untouched, other properties untouched). -/
theorem setProperty_spec (el : Elem) (w : JSVal) (name : String)
    (h1 : name ≠ "href") (h2 : name ≠ "innerText") :
    (getAttribute (setProperty el "href" w) "href" = .str w.toStr ∧
     (setProperty el "href" w).props "href" = w) ∧
    ((setProperty el "innerText" w).textContent = w ∧
     (setProperty el "innerText" w).props "innerText" = w ∧
     (setProperty el "innerText" w).attrs = el.attrs) ∧
    ((setProperty el name w).attrs = el.attrs ∧
     (setProperty el name w).textContent = el.textContent ∧
     (setProperty el name w).props name = w ∧
     ∀ other, other ≠ name → (setProperty el name w).props other = el.props other) := by
  refine ⟨⟨?_, ?_⟩, ⟨?_, ?_, ?_⟩, ?_, ?_, ?_, ?_⟩
  · simp [setProperty, getAttribute, setAttribute, find?_setKey]
  · simp [setProperty]
  · simp [setProperty]
  · simp [setProperty]
  · simp [setProperty]
  · simp [setProperty, h1, h2]
  · simp [setProperty, h1, h2]
  · simp [setProperty, h1, h2]
  · intro other hother
    simp [setProperty, h1, h2, hother]

/-- C6 witness at a concrete element and name. -/
theorem setProperty_spec_witness :
    getAttribute (setProperty sampleElem "href" (.str "/x")) "href" = .str "/x" ∧
    (setProperty sampleElem "id" (.str "y")).props "id" = .str "y" := by
  have ha := setProperty_spec sampleElem (.str "/x") "id" (by decide) (by decide)
  have hb := setProperty_spec sampleElem (.str "y") "id" (by decide) (by decide)
  exact ⟨ha.1.1, hb.2.2.2.2.1⟩

/-! ## Claim C7 — unsupported capabilities -/

/-- C7: `getHistory`, `getLocation`, `getDistributedNodes`, `getCookie` and
`setCookie` always fail synchronously with a not-implemented error whose
message names the capability; being an `error`, the result is never an `ok`
value and there is no no-op fallback. -/
theorem unsupported_capabilities_spec :
    getHistory = .error "This method is not implemented in DominoAdapter: getHistory" ∧
    getLocation = .error "This method is not implemented in DominoAdapter: getLocation" ∧
    (∀ el, getDistributedNodes el =
      .error "This method is not implemented in DominoAdapter: getDistributedNodes") ∧
    (∀ name, getCookie name =
      .error "This method is not implemented in DominoAdapter: getCookie") ∧
    (∀ name value, setCookie name value =
      .error "This method is not implemented in DominoAdapter: setCookie") :=
  ⟨rfl, rfl, fun _ => rfl, fun _ => rfl, fun _ _ => rfl⟩

/-! ## Claim C8 — `dispatchEvent` -/

/-- C8: dispatching on `el` delivers the event first to `el` and then,
when the owning document (or `el` itself for a document) has a non-null
default view, to that default view — each target observes the event
exactly once. -/
theorem dispatchEvent_spec (env : DomEnv) (el : DNode) (evt win : Nat)
    (hwin : env.defaultView
        (match el.ownerDocument with | some d => d | none => el.id) = some win)
    (hne : win ≠ el.id) :
    dispatchEvent env el evt = [(el.id, evt), (win, evt)] ∧
    (dispatchEvent env el evt).count (el.id, evt) = 1 ∧
    (dispatchEvent env el evt).count (win, evt) = 1 := by
  have hd : dispatchEvent env el evt = [(el.id, evt), (win, evt)] := by
    simp only [dispatchEvent]
    rw [hwin]
  refine ⟨hd, ?_, ?_⟩ <;> rw [hd] <;>
    simp [List.count_cons, hne, Ne.symm hne, Prod.ext_iff]

/-- C8 witness: a node owned by document 0, whose default view is node 100. -/
theorem dispatchEvent_spec_witness :
    dispatchEvent sampleEnv sampleNode 7 = [(1, 7), (100, 7)] ∧
    (dispatchEvent sampleEnv sampleNode 7).count (1, 7) = 1 ∧
    (dispatchEvent sampleEnv sampleNode 7).count (100, 7) = 1 := by
  exact dispatchEvent_spec sampleEnv sampleNode 7 100 rfl (by decide)

/-! ## Claim C10 — node classifiers and the default document -/

/-- C10: before `getDefaultDocument()` has ever run, `isTextNode` and
`isCommentNode` dereference the uninitialized static field and fail; after
any `getDefaultDocument()` call the field is memoized (a further call
returns the same document and state) and both classifiers are total,
comparing `nodeType` against that document's constants. -/
theorem classifiers_defaultDoc_spec :
    (∀ node : TNode, ∃ e, isTextNode none node = .error e) ∧
    (∀ node : TNode, ∃ e, isCommentNode none node = .error e) ∧
    ∀ st : Option Doc,
      (getDefaultDocument st).2 = some (getDefaultDocument st).1 ∧
      getDefaultDocument (getDefaultDocument st).2 = getDefaultDocument st ∧
      (∀ node : TNode,
        isTextNode (getDefaultDocument st).2 node =
          .ok (decide (node.nodeType = (getDefaultDocument st).1.TEXT_NODE))) ∧
      (∀ node : TNode,
        isCommentNode (getDefaultDocument st).2 node =
          .ok (decide (node.nodeType = (getDefaultDocument st).1.COMMENT_NODE))) := by
  refine ⟨fun node => ⟨_, rfl⟩, fun node => ⟨_, rfl⟩, fun st => ?_⟩
  cases st <;> simp [getDefaultDocument, isTextNode, isCommentNode]

/-! ## Character-list lemmas for the style codec -/

theorem dropWhile_idem (p : Char → Bool) (l : List Char) :
    (l.dropWhile p).dropWhile p = l.dropWhile p := by
  induction l with
  | nil => rfl
  | cons a l ih =>
    by_cases h : p a
    · simp [List.dropWhile_cons, h, ih]
    · simp [List.dropWhile_cons, h]

theorem dropWhile_head_not (p : Char → Bool) (l : List Char) {a : Char} {t : List Char}
    (h : l.dropWhile p = a :: t) : p a = false := by
  induction l with
  | nil => simp [List.dropWhile] at h
  | cons b l ih =>
    by_cases hb : p b
    · rw [List.dropWhile_cons, if_pos hb] at h
      exact ih h
    · rw [List.dropWhile_cons, if_neg hb] at h
      injection h with h1 _
      subst h1
      simpa using hb

theorem dropWhile_eq_self_of_heads (p : Char → Bool) (l : List Char)
    (h : ∀ a t, l = a :: t → p a = false) : l.dropWhile p = l := by
  cases l with
  | nil => rfl
  | cons a t => rw [List.dropWhile_cons, if_neg (by simp [h a t rfl])]

theorem dropWhile_append_eq (p : Char → Bool) (l : List Char) :
    ∃ w, l = w ++ l.dropWhile p := by
  induction l with
  | nil => exact ⟨[], rfl⟩
  | cons a l ih =>
    by_cases h : p a
    · obtain ⟨w, hw⟩ := ih
      exact ⟨a :: w, by rw [List.dropWhile_cons, if_pos h, List.cons_append, ← hw]⟩
    · exact ⟨[], by rw [List.dropWhile_cons, if_neg h, List.nil_append]⟩

theorem mem_of_mem_dropWhile {p : Char → Bool} {c : Char} {l : List Char}
    (h : c ∈ l.dropWhile p) : c ∈ l := by
  obtain ⟨w, hw⟩ := dropWhile_append_eq p l
  rw [hw]
  exact List.mem_append_right w h

theorem mem_of_mem_jsTrim {c : Char} {s : Chars} (h : c ∈ jsTrim s) : c ∈ s := by
  unfold jsTrim at h
  rw [List.mem_reverse] at h
  have h1 := mem_of_mem_dropWhile h
  rw [List.mem_reverse] at h1
  exact mem_of_mem_dropWhile h1

theorem jsTrim_idem (s : Chars) : jsTrim (jsTrim s) = jsTrim s := by
  have hB : (jsTrim s).reverse.dropWhile Char.isWhitespace = (jsTrim s).reverse := by
    unfold jsTrim
    rw [List.reverse_reverse]
    exact dropWhile_idem _ _
  have hA : (jsTrim s).dropWhile Char.isWhitespace = jsTrim s := by
    apply dropWhile_eq_self_of_heads
    intro a t ht
    obtain ⟨w, hw⟩ :=
      dropWhile_append_eq Char.isWhitespace (s.dropWhile Char.isWhitespace).reverse
    have hy : s.dropWhile Char.isWhitespace = jsTrim s ++ w.reverse := by
      unfold jsTrim
      calc s.dropWhile Char.isWhitespace
          = (s.dropWhile Char.isWhitespace).reverse.reverse := (List.reverse_reverse _).symm
        _ = (w ++ (s.dropWhile Char.isWhitespace).reverse.dropWhile Char.isWhitespace).reverse :=
            by rw [← hw]
        _ = ((s.dropWhile Char.isWhitespace).reverse.dropWhile Char.isWhitespace).reverse
              ++ w.reverse := by rw [List.reverse_append]
    rw [ht] at hy
    exact dropWhile_head_not Char.isWhitespace s (by simpa using hy)
  show (((jsTrim s).dropWhile Char.isWhitespace).reverse.dropWhile Char.isWhitespace).reverse
    = jsTrim s
  rw [hA, hB, List.reverse_reverse]

theorem splitSemi_ne_nil (s : Chars) : splitSemi s ≠ [] := by
  cases s with
  | nil => simp [splitSemi]
  | cons c rest =>
    by_cases h : c = ';'
    · simp [splitSemi, h]
    · simp only [splitSemi, if_neg h]
      cases hsr : splitSemi rest <;> simp

theorem not_semi_mem_splitSemi : ∀ {s piece : Chars}, piece ∈ splitSemi s → ';' ∉ piece := by
  intro s
  induction s with
  | nil =>
    intro piece h
    simp [splitSemi] at h
    subst h
    simp
  | cons c rest ih =>
    intro piece h
    by_cases hc : c = ';'
    · rw [show splitSemi (c :: rest) = [] :: splitSemi rest by simp [splitSemi, hc]] at h
      rcases List.mem_cons.1 h with h | h
      · subst h; simp
      · exact ih h
    · cases hsr : splitSemi rest with
      | nil => exact absurd hsr (splitSemi_ne_nil rest)
      | cons p ps =>
        rw [show splitSemi (c :: rest) = (c :: p) :: ps by
          simp [splitSemi, hc, hsr]] at h
        rcases List.mem_cons.1 h with h | h
        · subst h
          intro hmem
          rcases List.mem_cons.1 hmem with h | h
          · exact hc h.symm
          · exact ih (hsr ▸ List.mem_cons_self p ps) h
        · exact ih (hsr ▸ List.mem_cons_of_mem p h)

theorem splitSemi_append_semi (a b : Chars) (ha : ';' ∉ a) :
    splitSemi (a ++ ';' :: b) = a :: splitSemi b := by
  induction a with
  | nil => simp [splitSemi]
  | cons c a ih =>
    have hc : ¬ c = ';' := fun h => ha (h ▸ List.mem_cons_self c a)
    have ha' : ';' ∉ a := fun h => ha (List.mem_cons_of_mem c h)
    rw [List.cons_append]
    rw [show splitSemi (c :: (a ++ ';' :: b)) =
        (match splitSemi (a ++ ';' :: b) with
         | [] => [[c]]
         | piece :: pieces => (c :: piece) :: pieces) by simp [splitSemi, hc]]
    rw [ih ha']

theorem splitColon_eq_none_iff (s : Chars) : splitColon s = none ↔ ':' ∉ s := by
  induction s with
  | nil => simp [splitColon]
  | cons c rest ih =>
    by_cases hc : c = ':'
    · subst hc; simp [splitColon]
    · rw [show splitColon (c :: rest) = (splitColon rest).map (fun p => (c :: p.1, p.2)) by
        simp [splitColon, hc]]
      rw [Option.map_eq_none', ih]
      constructor
      · intro h hmem
        rcases List.mem_cons.1 hmem with h' | h'
        · exact hc h'.symm
        · exact h h'
      · intro h hmem
        exact h (List.mem_cons_of_mem c hmem)

theorem splitColon_eq_some : ∀ {s k v : Chars}, splitColon s = some (k, v) →
    s = k ++ ':' :: v ∧ ':' ∉ k := by
  intro s
  induction s with
  | nil => intro k v h; simp [splitColon] at h
  | cons c rest ih =>
    intro k v h
    by_cases hc : c = ':'
    · subst hc
      rw [show splitColon (':' :: rest) = some ([], rest) by simp [splitColon]] at h
      injection h with h1
      injection h1 with hk hv
      subst hk; subst hv
      exact ⟨rfl, by simp⟩
    · rw [show splitColon (c :: rest) = (splitColon rest).map (fun p => (c :: p.1, p.2)) by
        simp [splitColon, hc]] at h
      rw [Option.map_eq_some'] at h
      obtain ⟨q, hq, heq⟩ := h
      injection heq with h1 h2
      subst h1
      subst h2
      obtain ⟨hrest, hkc⟩ := ih (k := q.1) (v := q.2) hq
      refine ⟨by rw [hrest]; rfl, ?_⟩
      intro hmem
      rcases List.mem_cons.1 hmem with h | h
      · exact hc h.symm
      · exact hkc h

theorem splitColon_append {k : Chars} (v : Chars) (hk : ':' ∉ k) :
    splitColon (k ++ ':' :: v) = some (k, v) := by
  induction k with
  | nil => simp [splitColon]
  | cons c k ih =>
    have hc : ¬ c = ':' := fun h => hk (h ▸ List.mem_cons_self c k)
    have hk' : ':' ∉ k := fun h => hk (List.mem_cons_of_mem c h)
    simp [splitColon, hc, ih hk']

/-! ## Style-map lemmas -/

theorem keys_cons {α β : Type} (p : α × β) (m : List (α × β)) :
    keys (p :: m) = p.1 :: keys m := rfl

theorem keys_append {α β : Type} (a b : List (α × β)) :
    keys (a ++ b) = keys a ++ keys b := by simp [keys]

theorem mem_setKey {α β : Type} [DecidableEq α] {m : List (α × β)} {k : α} {v : β} {p : α × β}
    (h : p ∈ setKey m k v) : p = (k, v) ∨ p ∈ m := by
  unfold setKey at h
  split at h
  · obtain ⟨q, hq, hfq⟩ := List.mem_map.1 h
    by_cases hqk : q.1 = k
    · left; rw [← hfq]; simp [hqk]
    · right; rw [← hfq]; simp only [if_neg hqk]; exact hq
  · rcases List.mem_append.1 h with h | h
    · right; exact h
    · left; simpa using h

theorem keys_setKey_update {α β : Type} [DecidableEq α] (m : List (α × β)) (k : α) (v : β)
    (h : k ∈ keys m) :
    keys (setKey m k v) = keys m := by
  unfold setKey
  rw [if_pos ((any_key_iff m k).2 h)]
  clear h
  induction m with
  | nil => rfl
  | cons q rest ih =>
    have hfq : ((fun p => if p.1 = k then (k, v) else p) q).1 = q.1 := by
      by_cases hq : q.1 = k <;> simp [hq]
    simp only [List.map_cons, keys_cons, hfq, ih]

theorem nodup_keys_setKey {α β : Type} [DecidableEq α] (m : List (α × β)) (k : α) (v : β)
    (h : (keys m).Nodup) :
    (keys (setKey m k v)).Nodup := by
  by_cases hk : k ∈ keys m
  · rw [keys_setKey_update m k v hk]; exact h
  · rw [setKey_of_not_mem m k v hk, keys_append]
    rw [List.nodup_append]
    refine ⟨h, List.nodup_singleton k, ?_⟩
    intro a ha hb
    simp [keys] at hb
    subst hb
    exact hk ha

theorem WFMap_setKey {m : StyleMap} {k v : Chars} (hm : WFMap m) (hp : WFPair (k, v)) :
    WFMap (setKey m k v) :=
  fun p hmem => (mem_setKey hmem).elim (fun h => h ▸ hp) (hm p)

theorem WFMutMap_setKey {m : MutStyleMap} {k : Chars} {v : Option Chars}
    (hm : WFMutMap m) (hp : WFMutPair (k, v)) :
    WFMutMap (setKey m k v) :=
  fun p hmem => (mem_setKey hmem).elim (fun h => h ▸ hp) (hm p)

theorem keys_toMutable (m : StyleMap) : keys (toMutable m) = keys m := by
  simp [keys, toMutable]

theorem WFMut_toMutable {m : StyleMap} (h : WFMap m) : WFMutMap (toMutable m) := by
  intro p hp
  obtain ⟨q, hq, rfl⟩ := List.mem_map.1 hp
  obtain ⟨h1, h2, h3, h4, h5⟩ := h q hq
  exact ⟨h1, h2, h3, fun v hv => by cases hv; exact ⟨h4, h5⟩⟩

/-! ## Serialization lemmas -/

theorem writeAux_acc (m : MutStyleMap) (acc : Chars) :
    m.foldl
      (fun acc p =>
        if truthy p.2 then acc ++ p.1 ++ ':' :: (p.2.getD [] ++ [';'])
        else acc)
      acc
    = acc ++ _writeStyleAttribute m := by
  induction m generalizing acc with
  | nil => simp [_writeStyleAttribute]
  | cons p m ih =>
    simp only [_writeStyleAttribute, List.foldl_cons]
    rw [ih, ih]
    by_cases h : truthy p.2 <;> simp [h, List.append_assoc]

theorem write_cons (p : Chars × Option Chars) (m : MutStyleMap) :
    _writeStyleAttribute (p :: m) =
      (if truthy p.2 then p.1 ++ ':' :: (p.2.getD [] ++ [';']) else []) ++
        _writeStyleAttribute m := by
  rw [show _writeStyleAttribute (p :: m) =
      List.foldl
        (fun acc q =>
          if truthy q.2 then acc ++ q.1 ++ ':' :: (q.2.getD [] ++ [';'])
          else acc)
        (if truthy p.2 then [] ++ p.1 ++ ':' :: (p.2.getD [] ++ [';']) else []) m
    from rfl]
  rw [writeAux_acc]
  by_cases h : truthy p.2 <;> simp [h]

theorem write_cons_some {k v : Chars} (m : MutStyleMap) (hv : v ≠ []) :
    _writeStyleAttribute ((k, some v) :: m) =
      (k ++ ':' :: v) ++ ';' :: _writeStyleAttribute m := by
  rw [write_cons]
  simp [truthy, hv, List.append_assoc]

theorem write_cons_falsy (p : Chars × Option Chars) (m : MutStyleMap)
    (h : truthy p.2 = false) :
    _writeStyleAttribute (p :: m) = _writeStyleAttribute m := by
  rw [write_cons]
  simp [h]

theorem truthyEntries_cons_some {k v : Chars} (m : MutStyleMap) (hv : v ≠ []) :
    truthyEntries ((k, some v) :: m) = (k, v) :: truthyEntries m := by
  simp [truthyEntries, List.filterMap_cons, hv]

theorem truthyEntries_cons_falsy (p : Chars × Option Chars) (m : MutStyleMap)
    (h : truthy p.2 = false) :
    truthyEntries (p :: m) = truthyEntries m := by
  obtain ⟨k, w⟩ := p
  cases w with
  | none => simp [truthyEntries, List.filterMap_cons]
  | some v =>
    have hv : v = [] := by simpa [truthy] using h
    subst hv
    simp [truthyEntries, List.filterMap_cons]

theorem keys_truthy_sub {m : MutStyleMap} {p : Chars × Chars}
    (h : p ∈ truthyEntries m) : p.1 ∈ keys m := by
  unfold truthyEntries at h
  obtain ⟨q, hq, hfq⟩ := List.mem_filterMap.1 h
  obtain ⟨qk, qv⟩ := q
  cases qv with
  | none => simp at hfq
  | some v =>
    by_cases hv : v = []
    · simp [hv] at hfq
    · simp only [if_neg hv] at hfq
      injection hfq with hfq
      rw [← hfq]
      exact List.mem_map.2 ⟨(qk, some v), hq, rfl⟩

/-! ## Parsing lemmas -/

theorem readSegs_nil (acc : StyleMap) : readSegs acc [] = .ok acc := rfl

theorem readSegs_cons_empty (acc : StyleMap) (rest : List Chars) :
    readSegs acc ([] :: rest) = readSegs acc rest := by
  simp [readSegs]

theorem readSegs_cons_ok (acc : StyleMap) (seg : Chars) (rest : List Chars)
    (hne : seg ≠ []) (k v : Chars) (hsc : splitColon seg = some (k, v)) :
    readSegs acc (seg :: rest) = readSegs (setKey acc (jsTrim k) (jsTrim v)) rest := by
  simp [readSegs, hsc, List.length_pos.2 hne]

theorem readSegs_cons_err (acc : StyleMap) (seg : Chars) (rest : List Chars)
    (hne : seg ≠ []) (hsc : splitColon seg = none) :
    readSegs acc (seg :: rest) = .error ("Invalid CSS style: " ++ String.mk seg) := by
  simp [readSegs, hsc, List.length_pos.2 hne]

theorem readSegs_write (m : MutStyleMap) (acc : StyleMap)
    (hwf : WFMutMap m) (hnd : (keys m).Nodup)
    (hdisj : ∀ k ∈ keys m, k ∉ keys acc) :
    readSegs acc (splitSemi (_writeStyleAttribute m)) = .ok (acc ++ truthyEntries m) := by
  induction m generalizing acc with
  | nil =>
    simp [show _writeStyleAttribute [] = [] from rfl, splitSemi, readSegs_nil,
      readSegs_cons_empty, truthyEntries]
  | cons p m ih =>
    obtain ⟨k, w⟩ := p
    have hwf' : WFMutMap m := fun q hq => hwf q (List.mem_cons_of_mem _ hq)
    have hnd' : (keys m).Nodup := by
      rw [keys_cons] at hnd
      exact hnd.of_cons
    by_cases ht : truthy w
    · obtain ⟨v, rfl⟩ : ∃ v, w = some v := by
        cases w with
        | none => simp [truthy] at ht
        | some v => exact ⟨v, rfl⟩
      have hv : v ≠ [] := by simpa [truthy] using ht
      obtain ⟨hkc, hks, hkt, hval⟩ := hwf (k, some v) (List.mem_cons_self _ _)
      obtain ⟨hvs, hvt⟩ := hval v rfl
      rw [write_cons_some m hv]
      have hseg : ';' ∉ k ++ ':' :: v := by
        intro hmem
        rcases List.mem_append.1 hmem with h | h
        · exact hks h
        · rcases List.mem_cons.1 h with h | h
          · exact absurd h (by decide)
          · exact hvs h
      rw [splitSemi_append_semi _ _ hseg]
      rw [readSegs_cons_ok _ _ _ (by cases k <;> simp) k v (splitColon_append v hkc)]
      rw [hkt, hvt]
      have hknotacc : k ∉ keys acc := hdisj k (by rw [keys_cons]; exact List.mem_cons_self _ _)
      rw [setKey_of_not_mem acc k v hknotacc]
      rw [ih (acc ++ [(k, v)]) hwf' hnd' ?_]
      · rw [truthyEntries_cons_some m hv, List.append_assoc]
        rfl
      · intro k' hk' hk'mem
        rw [keys_append] at hk'mem
        rcases List.mem_append.1 hk'mem with h | h
        · exact hdisj k' (by rw [keys_cons]; exact List.mem_cons_of_mem _ hk') h
        · have : k' = k := by simpa [keys] using h
          subst this
          rw [keys_cons] at hnd
          exact (List.nodup_cons.1 hnd).1 hk'
    · have ht' : truthy w = false := by simpa using ht
      rw [write_cons_falsy (k, w) m ht', truthyEntries_cons_falsy (k, w) m ht']
      exact ih acc hwf' hnd' (fun k' hk' =>
        hdisj k' (by rw [keys_cons]; exact List.mem_cons_of_mem _ hk'))

theorem truthyEntries_eq_nil_of_write_nil (m : MutStyleMap)
    (h : _writeStyleAttribute m = []) : truthyEntries m = [] := by
  induction m with
  | nil => rfl
  | cons p m ih =>
    obtain ⟨k, w⟩ := p
    by_cases ht : truthy w
    · obtain ⟨v, rfl⟩ : ∃ v, w = some v := by
        cases w with
        | none => simp [truthy] at ht
        | some v => exact ⟨v, rfl⟩
      have hv : v ≠ [] := by simpa [truthy] using ht
      rw [write_cons_some m hv] at h
      cases k <;> simp at h
    · have ht' : truthy w = false := by simpa using ht
      rw [write_cons_falsy (k, w) m ht'] at h
      rw [truthyEntries_cons_falsy (k, w) m ht']
      exact ih h

theorem read_write (m : MutStyleMap) (hwf : WFMutMap m) (hnd : (keys m).Nodup) :
    _readStyleAttribute (some (_writeStyleAttribute m)) = .ok (truthyEntries m) := by
  rw [show _readStyleAttribute (some (_writeStyleAttribute m)) =
      if _writeStyleAttribute m = [] then .ok []
      else readSegs [] (splitSemi (_writeStyleAttribute m)) from rfl]
  by_cases h : _writeStyleAttribute m = []
  · rw [if_pos h, truthyEntries_eq_nil_of_write_nil m h]
  · rw [if_neg h]
    have := readSegs_write m [] hwf hnd (by simp [keys])
    simpa using this

theorem readSegs_wf : ∀ (segs : List Chars) (acc m : StyleMap),
    (∀ seg ∈ segs, ';' ∉ seg) → WFMap acc → (keys acc).Nodup →
    readSegs acc segs = .ok m → WFMap m ∧ (keys m).Nodup := by
  intro segs
  induction segs with
  | nil =>
    intro acc m _ hacc hnd h
    rw [readSegs_nil] at h
    injection h with h
    subst h
    exact ⟨hacc, hnd⟩
  | cons seg rest ih =>
    intro acc m hsemi hacc hnd h
    have hsemi' : ∀ s ∈ rest, ';' ∉ s := fun s hs => hsemi s (List.mem_cons_of_mem _ hs)
    by_cases hne : seg = []
    · subst hne
      rw [readSegs_cons_empty] at h
      exact ih acc m hsemi' hacc hnd h
    · cases hsc : splitColon seg with
      | none =>
        rw [readSegs_cons_err _ _ _ hne hsc] at h
        cases h
      | some kv =>
        rw [readSegs_cons_ok _ _ _ hne kv.1 kv.2 (by simpa using hsc)] at h
        obtain ⟨hseq, hkcolon⟩ := splitColon_eq_some (k := kv.1) (v := kv.2) (by simpa using hsc)
        have hsegsemi : ';' ∉ seg := hsemi seg (List.mem_cons_self _ _)
        have hpair : WFPair (jsTrim kv.1, jsTrim kv.2) := by
          refine ⟨?_, ?_, jsTrim_idem kv.1, ?_, jsTrim_idem kv.2⟩
          · exact fun hmem => hkcolon (mem_of_mem_jsTrim hmem)
          · intro hmem
            exact hsegsemi (by
              rw [hseq]
              exact List.mem_append_left _ (mem_of_mem_jsTrim hmem))
          · intro hmem
            exact hsegsemi (by
              rw [hseq]
              exact List.mem_append_right _ (List.mem_cons_of_mem _ (mem_of_mem_jsTrim hmem)))
        exact ih _ m hsemi' (WFMap_setKey hacc hpair)
          (nodup_keys_setKey _ _ _ hnd) h

theorem read_wf {attr : Option Chars} {m : StyleMap}
    (h : _readStyleAttribute attr = .ok m) :
    WFMap m ∧ (keys m).Nodup := by
  cases attr with
  | none =>
    injection h with h
    subst h
    exact ⟨fun p hp => absurd hp (List.not_mem_nil p), List.nodup_nil⟩
  | some s =>
    rw [show _readStyleAttribute (some s) =
        if s = [] then .ok [] else readSegs [] (splitSemi s) from rfl] at h
    by_cases hs : s = []
    · rw [if_pos hs] at h
      injection h with h
      subst h
      exact ⟨fun p hp => absurd hp (List.not_mem_nil p), List.nodup_nil⟩
    · rw [if_neg hs] at h
      exact readSegs_wf (splitSemi s) [] m
        (fun seg hseg => not_semi_mem_splitSemi hseg)
        (fun p hp => absurd hp (List.not_mem_nil p)) List.nodup_nil h

/-! ## Lookup in the truthy entries after an assignment -/

theorem find?_truthy_updateMap (M : MutStyleMap) (k v : Chars)
    (hv : v ≠ []) (hk : k ∈ keys M) :
    (truthyEntries (M.map (fun p => if p.1 = k then (k, some v) else p))).find?
        (fun p => decide (p.1 = k)) = some (k, v) := by
  induction M with
  | nil => cases hk
  | cons q rest ih =>
    obtain ⟨qk, qv⟩ := q
    by_cases hq : qk = k
    · rw [List.map_cons, show (if (qk, qv).1 = k then (k, some v) else (qk, qv)) = (k, some v)
        by simp [hq]]
      rw [truthyEntries_cons_some _ hv]
      simp [List.find?_cons]
    · rw [List.map_cons, show (if (qk, qv).1 = k then (k, some v) else (qk, qv)) = (qk, qv)
        by simp [hq]]
      have hk' : k ∈ keys rest := by
        rw [keys_cons] at hk
        rcases List.mem_cons.1 hk with h | h
        · exact absurd h.symm hq
        · exact h
      cases qv with
      | none =>
        rw [truthyEntries_cons_falsy (qk, none) _ (by simp [truthy])]
        exact ih hk'
      | some w =>
        by_cases hw : w = []
        · subst hw
          rw [truthyEntries_cons_falsy (qk, some []) _ (by simp [truthy])]
          exact ih hk'
        · rw [truthyEntries_cons_some _ hw]
          rw [List.find?_cons, show (decide ((qk, w).1 = k)) = false by simp [hq]]
          exact ih hk'

theorem find?_truthy_setKey_some (M : MutStyleMap) (k v : Chars) (hv : v ≠ []) :
    (truthyEntries (setKey M k (some v))).find? (fun p => decide (p.1 = k)) =
      some (k, v) := by
  by_cases hk : k ∈ keys M
  · unfold setKey
    rw [if_pos ((any_key_iff M k).2 hk)]
    exact find?_truthy_updateMap M k v hv hk
  · rw [setKey_of_not_mem M k (some v) hk]
    rw [show truthyEntries (M ++ [(k, some v)]) =
        truthyEntries M ++ truthyEntries [(k, some v)] by
      simp [truthyEntries, List.filterMap_append]]
    rw [List.find?_append]
    rw [show (truthyEntries M).find? (fun p => decide (p.1 = k)) = none by
      rw [List.find?_eq_none]
      intro p hp
      simp only [decide_eq_true_eq]
      intro hpk
      exact hk (hpk ▸ keys_truthy_sub hp)]
    rw [show truthyEntries [(k, some v)] = [(k, v)] by
      simp [truthyEntries, List.filterMap_cons, hv]]
    simp [List.find?_cons]

theorem find?_truthy_setKey_none (M : MutStyleMap) (k : Chars) :
    (truthyEntries (setKey M k none)).find? (fun p => decide (p.1 = k)) = none := by
  rw [List.find?_eq_none]
  intro p hp
  simp only [decide_eq_true_eq]
  intro hpk
  by_cases hk : k ∈ keys M
  · rw [show setKey M k (none : Option Chars) =
        M.map (fun p => if p.1 = k then (k, none) else p) by
      unfold setKey
      rw [if_pos ((any_key_iff M k).2 hk)]] at hp
    obtain ⟨q', hq', hfq'⟩ := List.mem_filterMap.1 hp
    obtain ⟨q, hq, hfq⟩ := List.mem_map.1 hq'
    by_cases hqk : q.1 = k
    · rw [if_pos hqk] at hfq
      rw [← hfq] at hfq'
      simp at hfq'
    · rw [if_neg hqk] at hfq
      subst hfq
      obtain ⟨qk, qv⟩ := q
      cases qv with
      | none => simp at hfq'
      | some w =>
        by_cases hw : w = []
        · simp [hw] at hfq'
        · simp only [if_neg hw] at hfq'
          injection hfq' with hfq'
          rw [← hfq'] at hpk
          exact hqk hpk
  · rw [setKey_of_not_mem M k none hk] at hp
    rcases List.mem_filterMap.1 hp with ⟨q, hq, hfq⟩
    rcases List.mem_append.1 hq with hq | hq
    · obtain ⟨qk, qv⟩ := q
      cases qv with
      | none => simp at hfq
      | some w =>
        by_cases hw : w = []
        · simp [hw] at hfq
        · simp only [if_neg hw] at hfq
          injection hfq with hfq
          apply hk
          rw [← hfq] at hpk
          exact hpk ▸ List.mem_map.2 ⟨(qk, some w), hq, rfl⟩
    · have hq2 : q = (k, none) := by simpa using hq
      subst hq2
      simp at hfq

/-! ## Unfolding the style operations through the read -/

theorem setStyle_ok {attr attr' : Option Chars} {n : Chars} {v : Option Chars}
    (h : setStyle attr n v = .ok attr') :
    ∃ m, _readStyleAttribute attr = .ok m ∧
      attr' = some (_writeStyleAttribute (setKey (toMutable m) n v)) := by
  unfold setStyle at h
  cases hread : _readStyleAttribute attr with
  | error e =>
    rw [hread] at h
    have h' : (Except.error e : Except String (Option Chars)) = Except.ok attr' := h
    exact Except.noConfusion h'
  | ok m =>
    rw [hread] at h
    have h' : Except.ok (some (_writeStyleAttribute (setKey (toMutable m) n v))) =
        (Except.ok attr' : Except String (Option Chars)) := h
    injection h' with h'
    exact ⟨m, rfl, h'.symm⟩

theorem getStyle_of_read {attr : Option Chars} {n : Chars} {m : StyleMap}
    (hread : _readStyleAttribute attr = .ok m) :
    getStyle attr n =
      .ok (match m.find? (fun p => decide (p.1 = n)) with
           | some p => p.2
           | none => []) := by
  have hred : getStyle attr n =
      (match m.find? (fun p => decide (p.1 = n)) with
       | some p => Except.ok p.2
       | none => Except.ok []) := by
    unfold getStyle
    rw [hread]
    exact rfl
  rw [hred]
  cases m.find? (fun p => decide (p.1 = n)) <;> rfl

theorem style_read_error {attr : Option Chars} {e : String}
    (hread : _readStyleAttribute attr = .error e) (n : Chars) (v w : Option Chars) :
    getStyle attr n = .error e ∧ setStyle attr n v = .error e ∧
      removeStyle attr n = .error e ∧ hasStyle attr n w = .error e := by
  refine ⟨?_, ?_, ?_, ?_⟩
  · unfold getStyle; rw [hread]; rfl
  · unfold setStyle; rw [hread]; rfl
  · unfold removeStyle setStyle; rw [hread]; rfl
  · unfold hasStyle getStyle; rw [hread]; rfl

theorem hasStyle_of_get {attr : Option Chars} {n val : Chars}
    (hget : getStyle attr n = .ok val) (w : Option Chars) :
    hasStyle attr n w =
      .ok (if truthy w then decide (val = w.getD []) else decide (0 < val.length)) := by
  unfold hasStyle
  rw [hget]
  exact rfl

theorem readSegs_error (segs : List Chars) (acc : StyleMap)
    (h : ∃ seg ∈ segs, seg ≠ [] ∧ ':' ∉ seg) :
    ∃ bad, bad ∈ segs ∧ bad ≠ [] ∧ ':' ∉ bad ∧
      readSegs acc segs = .error ("Invalid CSS style: " ++ String.mk bad) := by
  induction segs generalizing acc with
  | nil =>
    obtain ⟨seg, hmem, _⟩ := h
    cases hmem
  | cons seg rest ih =>
    by_cases hne : seg = []
    · subst hne
      rw [readSegs_cons_empty]
      have h' : ∃ t ∈ rest, t ≠ [] ∧ ':' ∉ t := by
        obtain ⟨t, hmem, ht⟩ := h
        rcases List.mem_cons.1 hmem with heq | hmem'
        · exact absurd heq ht.1
        · exact ⟨t, hmem', ht⟩
      obtain ⟨bad, hb1, hb2, hb3, hb4⟩ := ih acc h'
      exact ⟨bad, List.mem_cons_of_mem _ hb1, hb2, hb3, hb4⟩
    · cases hsc : splitColon seg with
      | none =>
        exact ⟨seg, List.mem_cons_self _ _, hne, (splitColon_eq_none_iff seg).1 hsc,
          readSegs_cons_err acc seg rest hne hsc⟩
      | some kv =>
        rw [readSegs_cons_ok acc seg rest hne kv.1 kv.2 (by simpa using hsc)]
        have hcolon_seg : ':' ∈ seg := by
          obtain ⟨hseq, _⟩ :=
            splitColon_eq_some (k := kv.1) (v := kv.2) (by simpa using hsc)
          rw [hseq]
          exact List.mem_append_right _ (List.mem_cons_self _ _)
        have h' : ∃ t ∈ rest, t ≠ [] ∧ ':' ∉ t := by
          obtain ⟨t, hmem, ht⟩ := h
          rcases List.mem_cons.1 hmem with heq | hmem'
          · subst heq; exact absurd hcolon_seg ht.2
          · exact ⟨t, hmem', ht⟩
        obtain ⟨bad, hb1, hb2, hb3, hb4⟩ := ih _ h'
        exact ⟨bad, List.mem_cons_of_mem _ hb1, hb2, hb3, hb4⟩

theorem amendedSegs_cons_ok (acc : StyleMap) (seg : Chars) (rest : List Chars)
    (k v : Chars) (hsc : splitColon seg = some (k, v)) :
    amendedSegs acc (seg :: rest) = amendedSegs (setKey acc (jsTrim k) (jsTrim v)) rest := by
  simp [amendedSegs, hsc]

theorem amendedSegs_cons_err (acc : StyleMap) (seg : Chars) (rest : List Chars)
    (hsc : splitColon seg = none) :
    amendedSegs acc (seg :: rest) = .error ("Invalid CSS style: " ++ String.mk seg) := by
  simp [amendedSegs, hsc]

theorem readSegs_eq_amendedSegs (segs : List Chars) (acc : StyleMap) :
    readSegs acc segs = amendedSegs acc (segs.filter (fun seg => decide (seg ≠ []))) := by
  induction segs generalizing acc with
  | nil => rfl
  | cons seg rest ih =>
    by_cases hne : seg = []
    · subst hne
      rw [readSegs_cons_empty]
      rw [show ([] :: rest).filter (fun seg => decide (seg ≠ [])) =
          rest.filter (fun seg => decide (seg ≠ [])) by simp]
      exact ih acc
    · rw [show (seg :: rest).filter (fun t => decide (t ≠ [])) =
          seg :: rest.filter (fun t => decide (t ≠ [])) by simp [hne]]
      cases hsc : splitColon seg with
      | none =>
        rw [readSegs_cons_err acc seg rest hne hsc]
        rw [amendedSegs_cons_err _ _ _ hsc]
      | some kv =>
        rw [readSegs_cons_ok acc seg rest hne kv.1 kv.2 (by simpa using hsc)]
        rw [amendedSegs_cons_ok _ _ _ kv.1 kv.2 (by simpa using hsc)]
        exact ih _

/-! ## Claim C2 — the style codec round trip -/

/-- C2: setting `color:red` then reading it back yields `red`; setting
`color` to null then reading yields the empty string; the serialization of
the map with `color = red` and `margin` empty is exactly `color:red;`; and
in general serialization depends only on (and emits only) the
truthy-valued entries — a falsy entry never becomes `key:;`. -/
theorem style_codec_spec (attr : Option Chars) :
    (∀ attr1, setStyle attr ("color".toList) (some ("red".toList)) = .ok attr1 →
      getStyle attr1 ("color".toList) = .ok ("red".toList)) ∧
    (∀ attr2, setStyle attr ("color".toList) none = .ok attr2 →
      getStyle attr2 ("color".toList) = .ok []) ∧
    _writeStyleAttribute [("color".toList, some ("red".toList)), ("margin".toList, some [])]
      = "color:red;".toList ∧
    (∀ m : MutStyleMap,
      _writeStyleAttribute m = _writeStyleAttribute (toMutable (truthyEntries m))) := by
  have hpair_red : WFMutPair ("color".toList, some ("red".toList)) := by
    refine ⟨by decide, by decide, by decide, ?_⟩
    intro v hv
    injection hv with hv
    subst hv
    exact ⟨by decide, by decide⟩
  have hpair_none : WFMutPair ("color".toList, (none : Option Chars)) := by
    refine ⟨by decide, by decide, by decide, ?_⟩
    intro v hv
    cases hv
  refine ⟨?_, ?_, by decide, ?_⟩
  · intro attr1 h
    obtain ⟨m, hread, rfl⟩ := setStyle_ok h
    obtain ⟨hwf, hnd⟩ := read_wf hread
    have hwfM : WFMutMap (setKey (toMutable m) ("color".toList) (some ("red".toList))) :=
      WFMutMap_setKey (WFMut_toMutable hwf) hpair_red
    have hndM : (keys (setKey (toMutable m) ("color".toList) (some ("red".toList)))).Nodup :=
      nodup_keys_setKey _ _ _ (by rw [keys_toMutable]; exact hnd)
    rw [getStyle_of_read (read_write _ hwfM hndM)]
    rw [find?_truthy_setKey_some (toMutable m) _ _ (by decide)]
  · intro attr2 h
    obtain ⟨m, hread, rfl⟩ := setStyle_ok h
    obtain ⟨hwf, hnd⟩ := read_wf hread
    have hwfM : WFMutMap (setKey (toMutable m) ("color".toList) none) :=
      WFMutMap_setKey (WFMut_toMutable hwf) hpair_none
    have hndM : (keys (setKey (toMutable m) ("color".toList) none)).Nodup :=
      nodup_keys_setKey _ _ _ (by rw [keys_toMutable]; exact hnd)
    rw [getStyle_of_read (read_write _ hwfM hndM)]
    rw [find?_truthy_setKey_none (toMutable m) _]
  · intro m
    induction m with
    | nil => rfl
    | cons p m ih =>
      obtain ⟨k, w⟩ := p
      by_cases ht : truthy w
      · obtain ⟨v, rfl⟩ : ∃ v, w = some v := by
          cases w with
          | none => simp [truthy] at ht
          | some v => exact ⟨v, rfl⟩
        have hv : v ≠ [] := by simpa [truthy] using ht
        rw [write_cons_some m hv, truthyEntries_cons_some m hv]
        rw [show toMutable ((k, v) :: truthyEntries m) =
            (k, some v) :: toMutable (truthyEntries m) from rfl]
        rw [write_cons_some _ hv, ih]
      · have ht' : truthy w = false := by simpa using ht
        rw [write_cons_falsy (k, w) m ht', truthyEntries_cons_falsy (k, w) m ht', ih]

/-- C2 witness: starting from an element with no style attribute. -/
theorem style_codec_spec_witness :
    getStyle (some ("color:red;".toList)) ("color".toList) = .ok ("red".toList) ∧
    getStyle (some []) ("color".toList) = .ok [] := by
  have h := style_codec_spec none
  exact ⟨h.1 (some ("color:red;".toList)) (by decide), h.2.1 (some []) (by decide)⟩

/-! ## Claim C3 — malformed style attributes fail every style operation -/

/-- C3: when the style attribute has a non-empty segment without a colon,
every style operation (`getStyle`, `setStyle`, `removeStyle`, `hasStyle`)
fails with an error naming an offending segment instead of returning a
value. -/
theorem style_ops_malformed_spec (s seg n : Chars) (v : Option Chars)
    (hmem : seg ∈ splitSemi s) (hne : seg ≠ []) (hc : ':' ∉ seg) :
    ∃ bad, bad ∈ splitSemi s ∧ bad ≠ [] ∧ ':' ∉ bad ∧
      _readStyleAttribute (some s) = .error ("Invalid CSS style: " ++ String.mk bad) ∧
      getStyle (some s) n = .error ("Invalid CSS style: " ++ String.mk bad) ∧
      setStyle (some s) n v = .error ("Invalid CSS style: " ++ String.mk bad) ∧
      removeStyle (some s) n = .error ("Invalid CSS style: " ++ String.mk bad) ∧
      ∀ w, hasStyle (some s) n w = .error ("Invalid CSS style: " ++ String.mk bad) := by
  have hs : s ≠ [] := by
    rintro rfl
    simp [splitSemi] at hmem
    exact hne hmem
  obtain ⟨bad, hb1, hb2, hb3, herr⟩ := readSegs_error (splitSemi s) [] ⟨seg, hmem, hne, hc⟩
  have hread : _readStyleAttribute (some s) =
      .error ("Invalid CSS style: " ++ String.mk bad) := by
    rw [show _readStyleAttribute (some s) =
        if s = [] then .ok [] else readSegs [] (splitSemi s) from rfl]
    rw [if_neg hs]
    exact herr
  refine ⟨bad, hb1, hb2, hb3, hread, (style_read_error hread n v none).1,
    (style_read_error hread n v none).2.1, (style_read_error hread n v none).2.2.1,
    fun w => (style_read_error hread n v w).2.2.2⟩

/-- C3 witness: the attribute `color red` (no colon). -/
theorem style_ops_malformed_witness :
    ∃ bad, bad ∈ splitSemi ("color red".toList) ∧ bad ≠ [] ∧ ':' ∉ bad ∧
      _readStyleAttribute (some ("color red".toList)) =
        .error ("Invalid CSS style: " ++ String.mk bad) ∧
      getStyle (some ("color red".toList)) ("color".toList) =
        .error ("Invalid CSS style: " ++ String.mk bad) ∧
      setStyle (some ("color red".toList)) ("color".toList) none =
        .error ("Invalid CSS style: " ++ String.mk bad) ∧
      removeStyle (some ("color red".toList)) ("color".toList) =
        .error ("Invalid CSS style: " ++ String.mk bad) ∧
      ∀ w, hasStyle (some ("color red".toList)) ("color".toList) w =
        .error ("Invalid CSS style: " ++ String.mk bad) :=
  style_ops_malformed_spec ("color red".toList) ("color red".toList) ("color".toList) none
    (by decide) (by decide) (by decide)

/-! ## Claim C4 — the parse policy -/

/-- C4 counterexample: on the attribute `color :red` the code's key is the
both-sides-trimmed `color`, not the left-trimmed `color ` the claim
predicts. -/
theorem parse_left_trim_counterexample :
    _readStyleAttribute (some ("color :red".toList)) =
      .ok [("color".toList, "red".toList)] ∧
    claimParseStyle (some ("color :red".toList)) =
      .ok [("color ".toList, "red".toList)] ∧
    _readStyleAttribute (some ("color :red".toList)) ≠
      claimParseStyle (some ("color :red".toList)) := by
  exact ⟨by decide, by decide, by decide⟩

/-- C4 amended: the parse splits on runs of semicolons, skips empty
segments, and takes the key as the substring before the first colon trimmed
on BOTH sides (not only left-trimmed) and the value as the trimmed
substring after it — `_readStyleAttribute` coincides with the amended
reference parser on every attribute. -/
theorem read_eq_amendedParse (attr : Option Chars) :
    _readStyleAttribute attr = amendedParseStyle attr := by
  cases attr with
  | none => rfl
  | some s =>
    rw [show _readStyleAttribute (some s) =
        if s = [] then .ok [] else readSegs [] (splitSemi s) from rfl]
    rw [show amendedParseStyle (some s) =
        amendedSegs [] ((splitSemi s).filter (fun seg => decide (seg ≠ []))) from rfl]
    by_cases hs : s = []
    · subst hs
      rw [if_pos rfl]
      rfl
    · rw [if_neg hs]
      exact readSegs_eq_amendedSegs (splitSemi s) []

/-! ## Claim C9 — `hasStyle` -/

/-- C9 counterexample: `hasStyle` with the explicit value `""` does NOT
check exact string equality — the empty string is falsy, so the code falls
back to the non-empty check and answers `true` although the stored value
`red` differs from `""`. -/
theorem hasStyle_empty_value_counterexample :
    hasStyle (some ("color:red;".toList)) ("color".toList) (some []) = .ok true ∧
    getStyle (some ("color:red;".toList)) ("color".toList) = .ok ("red".toList) ∧
    "red".toList ≠ ([] : Chars) := by
  exact ⟨by decide, by decide, by decide⟩

/-- C9 amended: `hasStyle` without a value (or with the falsy empty-string
value, which behaves identically) returns whether `getStyle` is non-empty;
with a NON-EMPTY value it returns exact string equality with `getStyle`. -/
theorem hasStyle_spec (attr : Option Chars) (n val v : Chars)
    (hget : getStyle attr n = .ok val) (hv : v ≠ []) :
    hasStyle attr n (some v) = .ok (decide (val = v)) ∧
    hasStyle attr n none = .ok (decide (0 < val.length)) ∧
    hasStyle attr n (some []) = hasStyle attr n none := by
  refine ⟨?_, ?_, ?_⟩
  · rw [hasStyle_of_get hget (some v)]
    simp [truthy, hv]
  · rw [hasStyle_of_get hget none]
    simp [truthy]
  · rw [hasStyle_of_get hget (some []), hasStyle_of_get hget none]
    simp [truthy]

/-- C9 witness at a concrete attribute and values. -/
theorem hasStyle_spec_witness :
    hasStyle (some ("color:red;".toList)) ("color".toList) (some ("blue".toList)) =
      .ok (decide ("red".toList = "blue".toList)) ∧
    hasStyle (some ("color:red;".toList)) ("color".toList) none =
      .ok (decide (0 < ("red".toList).length)) ∧
    hasStyle (some ("color:red;".toList)) ("color".toList) (some []) =
      hasStyle (some ("color:red;".toList)) ("color".toList) none :=
  hasStyle_spec (some ("color:red;".toList)) ("color".toList) ("red".toList) ("blue".toList)
    (by decide) (by decide)

end DominoAdapter
